import Mathlib

/-!
Shallow embedding of the weekly shopping planner (`systemsDev/mainscript.py`).

Python dictionaries are modelled as association lists (`List (String × β)`)
that preserve insertion order, Python sets of store names as lists in some
iteration order, exact arithmetic on costs as `Rat`, and machine integers as
`Nat`/`Int`.  The per-house schedule (a `defaultdict(list)` from day to
actions) is modelled as the list of `(day, action)` events in emission order:
the per-day action list of the Python dict is the filter of this event list.
-/

/-- `dict.get(k, default)` without the default: the value stored under the
first (and, for the nodup-key dicts of this program, only) occurrence of `k`. -/
def dictFind {β : Type} (m : List (String × β)) (k : String) : Option β :=
  (m.find? (fun p => p.1 == k)).map (fun p => p.2)

/-- `dict[k] = v`: overwrite the entry for `k` in place, or append a fresh
entry at the end (Python dicts preserve insertion order). -/
def dictSet {β : Type} (m : List (String × β)) (k : String) (v : β) : List (String × β) :=
  match m with
  | [] => [(k, v)]
  | (k', w) :: rest => if k' = k then (k', v) :: rest else (k', w) :: dictSet rest k v

/-- Mutate the value stored under key `k` in place (models
`houses[house_id].add_product(...)` on an existing entry). -/
def dictUpdate {β : Type} (m : List (String × β)) (k : String) (f : β → β) : List (String × β) :=
  match m with
  | [] => []
  | (k', w) :: rest => if k' = k then (k', f w) :: rest else (k', w) :: dictUpdate rest k f

/-- Python `str.strip()`: drop leading and trailing whitespace (written over
the character list so that it evaluates inside the kernel). -/
def pyStrip (s : String) : String :=
  ⟨((s.data.dropWhile Char.isWhitespace).reverse.dropWhile Char.isWhitespace).reverse⟩

/-- Python `str.isdigit()` restricted to ASCII decimal digits (each input this
program feeds it is an ASCII cell of a CSV file).  The empty string is not a
digit string. -/
def pyIsdigit (s : String) : Bool :=
  !s.data.isEmpty && s.data.all Char.isDigit

/-- Python `int(...)` on a string already validated by `isdigit`. -/
def pyInt (s : String) : Nat :=
  s.data.foldl (fun n c => n * 10 + (c.toNat - 48)) 0

/-- Decimal value of a list of ASCII digit characters. -/
def digitsVal (cs : List Char) : Nat :=
  cs.foldl (fun n c => n * 10 + (c.toNat - 48)) 0

/-- Python `int(...)` returning `none` where Python raises `ValueError`:
an optional ASCII sign followed by a nonempty run of ASCII decimal digits.
(Python additionally accepts underscore separators and non-ASCII digits;
none of those forms occur in this development.) -/
def pyParseInt (cs : List Char) : Option Int :=
  match cs with
  | [] => none
  | '-' :: rest =>
    if !rest.isEmpty && rest.all Char.isDigit then some (-(digitsVal rest : Int)) else none
  | '+' :: rest =>
    if !rest.isEmpty && rest.all Char.isDigit then some ((digitsVal rest : Int)) else none
  | _ =>
    if cs.all Char.isDigit then some ((digitsVal cs : Int)) else none

/-- Python `str.split()` with no separator: split on runs of whitespace,
discarding empty pieces.  `acc` is the portion of the current word read so
far. -/
def pySplitAux : List Char → List Char → List (List Char)
  | [], acc => if acc.isEmpty then [] else [acc]
  | c :: cs, acc =>
    if c.isWhitespace then
      if acc.isEmpty then pySplitAux cs [] else acc :: pySplitAux cs []
    else
      pySplitAux cs (acc ++ [c])

/-- Python `day.split()`. -/
def pySplit (s : String) : List (List Char) :=
  pySplitAux s.data []

/-- Python `s.startswith(pre)`. -/
def pyStartswith (s pre : String) : Bool :=
  List.isPrefixOf pre.data s.data

/-! ## Data classes -/

/-- One line item of a household order: the dict
`{"product": str, "quantity": int, "cost": float, "stores": set}`.
Quantities enter only through `int` on an `isdigit` string, hence `Nat`;
costs are read exactly, hence `Rat`; the candidate-store set is kept as a
list in its iteration order. -/
structure Product where
  product : String
  quantity : Nat
  cost : Rat
  stores : List String
deriving DecidableEq, Repr

/-- The `House` class: an identifier and the ordered line items. -/
structure House where
  house_number : String
  products : List Product
deriving DecidableEq, Repr

/-- The `Store` class: a name and the set of stocked product names. -/
structure StoreObj where
  store_name : String
  products : List String
deriving DecidableEq, Repr

/-- `House.add_product`: append the line item, but only when the quantity is
truthy (a Python `int` is truthy exactly when it is nonzero). -/
def House.add_product (h : House) (product_name : String) (quantity : Nat)
    (cost : Rat) (store_list : List String) : House :=
  if quantity ≠ 0 then
    ⟨h.house_number, h.products ++ [⟨product_name, quantity, cost, store_list⟩]⟩
  else h

/-- `ScheduleAction.action_type` values. -/
inductive ActionType where
  | STORE
  | DELIVER
deriving DecidableEq, Repr

/-- The `ScheduleAction` class. -/
structure ScheduleAction where
  action_type : ActionType
  items : List String
  store : String
deriving DecidableEq, Repr

/-! ## CSV loading (`load_house_orders`) -/

/-- The quantity cell
`row[i+offset].strip() if i+offset < len(row) else ''`. -/
def pyCellAt (row : List String) (i : Nat) : String :=
  if i < row.length then pyStrip (row.getD i "") else ""

/-- The body of the `for i, house_id in enumerate(house_nums)` loop: create
the house on first sight, then `add_product`, but only when the quantity cell
is a digit string with a positive value.  (`qty_str` is bound once in Python;
`pyCellAt` is pure, so reading it twice is the same value.) -/
def loadCell (product : String) (cost : Rat) (available : List String)
    (offset : Nat) (row : List String)
    (houses : List (String × House)) (iph : Nat × String) : List (String × House) :=
  if pyIsdigit (pyCellAt row (iph.1 + offset)) then
    if pyInt (pyCellAt row (iph.1 + offset)) > 0 then
      dictUpdate
        (if (houses.map Prod.fst).contains iph.2 then houses
         else houses ++ [(iph.2, House.mk iph.2 [])])
        iph.2
        (fun h => h.add_product product (pyInt (pyCellAt row (iph.1 + offset)))
          cost available)
    else houses
  else houses

/-- The body of the `for row in reader` loop of `load_house_orders`: one data
row may add one line item to each house column whose quantity cell is a
strictly positive digit string. -/
def loadStep (stores : List StoreObj) (product_costs : List (String × Rat))
    (house_nums : List String) (offset : Nat)
    (houses : List (String × House)) (row : List String) : List (String × House) :=
  if row ≠ [] then
    let product := pyStrip (row.headD "")
    let cost := (dictFind product_costs product).getD 0
    let available := (stores.filter (fun s => s.products.contains product)).map
      (fun s => s.store_name)
    (house_nums.enum).foldl (loadCell product cost available offset row) houses
  else houses

/-- `load_house_orders`, starting from the parsed CSV rows.  The two
`next(reader)` calls consume the two header rows (Python would raise
`StopIteration` on fewer than two rows; that abnormal exit is modelled as the
empty result). -/
def load_house_orders (rows : List (List String)) (stores : List StoreObj)
    (product_costs : List (String × Rat)) : List (String × House) :=
  match rows with
  | [] => []
  | header :: rest =>
    let p := if header.length > 1 ∧ pyStrip (header.getD 1 "") = ""
      then (((header.drop 2).filter (fun c => pyStrip c != "")), 2)
      else (((header.drop 1).filter (fun c => pyStrip c != "")), 1)
    match rest with
    | [] => []
    | _ :: dataRows => dataRows.foldl (loadStep stores product_costs p.1 p.2) []

/-! ## House chain and pairing -/

/-- `fixed_order.get(s, default)`. -/
def foGet (fixed_order : List (String × Nat)) (s : String) (default : Nat) : Nat :=
  (dictFind fixed_order s).getD default

/-- Comparison of a rank against the running best, whose initial value is
Python `float("inf")` (modelled as `none`). -/
def ltInf (p : Nat) : Option Nat → Bool
  | none => true
  | some bp => p < bp

/-- The best-store search loop of `compute_house_chain`:
`for s in cands: p = fixed_order.get(s, 9999); if p < best_p: ...`. -/
def chainBestLoop (fixed_order : List (String × Nat)) :
    List String → Option String → Option Nat → Option String
  | [], best_s, _ => best_s
  | s :: rest, best_s, best_p =>
    let p := foGet fixed_order s 9999
    if ltInf p best_p then chainBestLoop fixed_order rest (some s) (some p)
    else chainBestLoop fixed_order rest best_s best_p

/-- The item-description string `f"{product} x{qty}"`. -/
def itemStr (pr : Product) : String :=
  pr.product ++ " x" ++ toString pr.quantity

/-- `chain_map[best_s].append(item)` on a `defaultdict(list)`: extend the
entry in place, or append a fresh singleton entry at the end. -/
def appendItem (m : List (String × List String)) (s : String) (item : String) :
    List (String × List String) :=
  match m with
  | [] => [(s, [item])]
  | (k, v) :: rest =>
    if k = s then (k, v ++ [item]) :: rest else (k, v) :: appendItem rest s item

/-- The body of the `for pr in house.products` loop of `compute_house_chain`:
`if best_s and qty > 0` (a Python string is truthy exactly when nonempty). -/
def chainStep (fixed_order : List (String × Nat))
    (m : List (String × List String)) (pr : Product) : List (String × List String) :=
  match chainBestLoop fixed_order pr.stores none none with
  | some best_s =>
    if best_s ≠ "" ∧ 0 < pr.quantity then appendItem m best_s (itemStr pr) else m
  | none => m

/-- The `chain_map` built by `compute_house_chain` before sorting. -/
def chainMapOf (fixed_order : List (String × Nat)) (prs : List Product) :
    List (String × List String) :=
  prs.foldl (chainStep fixed_order) []

/-- `compute_house_chain`.  Python sorts with key `fixed_order[x[0]]`, which
raises on a store missing from `fixed_order`; the total model uses the same
9999 default as the selection loop, which the rank hypotheses of the theorems
below make unreachable.  `List.insertionSort` with the ≤-by-key relation is a
stable sort, as Python `sorted` is.  The `stores` argument is unused, exactly
as in the source. -/
def compute_house_chain (house : House) (stores : List StoreObj)
    (fixed_order : List (String × Nat)) : List (String × List String) :=
  List.insertionSort
    (fun a b => foGet fixed_order a.1 9999 ≤ foGet fixed_order b.1 9999)
    (chainMapOf fixed_order house.products)

/-- `build_house_schedule`, as the list of `(day, action)` events in emission
order; the Python day-to-actions dict is recovered by filtering on the day.
The `house` argument is unused, exactly as in the source. -/
def build_house_schedule (house : House) (chain : List (String × List String))
    (fixed_schedule : String → String) : List (String × ScheduleAction) :=
  match chain with
  | [] => []
  | [(store_name, items_list)] =>
    if items_list ≠ [] then
      [(fixed_schedule store_name, ⟨ActionType.STORE, items_list, store_name⟩),
       (fixed_schedule store_name, ⟨ActionType.DELIVER, items_list, store_name⟩)]
    else []
  | (s0_name, s0_items) :: (s1_name, s1_items) :: rest =>
    (if s0_items ≠ [] then
      [(fixed_schedule s0_name, ⟨ActionType.STORE, s0_items, s0_name⟩)] else []) ++
    (if s1_items ≠ [] then
      [(fixed_schedule s1_name, ⟨ActionType.STORE, s1_items, s1_name⟩)] else []) ++
    (let combined := s0_items ++ s1_items
     if combined ≠ [] then
      [(fixed_schedule s1_name, ⟨ActionType.DELIVER, combined, s0_name ++ "+" ++ s1_name⟩)]
     else []) ++
    build_house_schedule house rest fixed_schedule

/-! ## Cost functions -/

/-- `compute_total_cost`. -/
def compute_total_cost (houses : List House) : Rat :=
  houses.foldl (fun total h =>
    h.products.foldl (fun t pr => t + pr.cost * (pr.quantity : Rat)) total) 0

/-- The best-store search loop of `compute_costs`, duplicated verbatim from
the one in `compute_house_chain` (the source repeats the code). -/
def costsBestLoop (fixed_order : List (String × Nat)) :
    List String → Option String → Option Nat → Option String
  | [], best_s, _ => best_s
  | s :: rest, best_s, best_p =>
    let p := foGet fixed_order s 9999
    if ltInf p best_p then costsBestLoop fixed_order rest (some s) (some p)
    else costsBestLoop fixed_order rest best_s best_p

/-- `store_costs.get(best_s, 0.0)`. -/
def scGet (sc : List (String × Rat)) (s : String) : Rat :=
  (dictFind sc s).getD 0

/-- The inner `for pr in h.products` loop of `compute_costs`, threading the
running household total and the store-costs dict. -/
def costs_inner (fixed_order : List (String × Nat)) (prs : List Product)
    (acc : Rat × List (String × Rat)) : Rat × List (String × Rat) :=
  prs.foldl (fun acc2 pr =>
    (acc2.1 + pr.cost * (pr.quantity : Rat),
     match costsBestLoop fixed_order pr.stores none none with
     | some best_s =>
       if best_s ≠ "" then
         dictSet acc2.2 best_s (scGet acc2.2 best_s + pr.cost * (pr.quantity : Rat))
       else acc2.2
     | none => acc2.2)) acc

/-- `compute_costs`: the pair `(house_costs, store_costs)`. -/
def compute_costs (houses : List House) (fixed_order : List (String × Nat)) :
    List (String × Rat) × List (String × Rat) :=
  houses.foldl (fun acc h =>
    let inner := costs_inner fixed_order h.products (0, acc.2)
    (dictSet acc.1 h.house_number inner.1, inner.2)) ([], [])

/-! ## Day ordering -/

/-- The module-level `DAY_LIST`. -/
def DAY_LIST : List String :=
  ["Monday", "Tuesday", "Wednesday", "Thursday", "Friday", "Saturday", "Sunday"]

/-- `day_sort_key`.  The `try: return 7 + int(parts[2]) except: return 9999`
is the `none` branch of `pyParseInt`. -/
def day_sort_key (day : String) : Int :=
  if day ∈ DAY_LIST then (DAY_LIST.indexOf day : Int) + 1
  else if pyStartswith day "Extra Day" then
    let parts := pySplit day
    if parts.length = 3 then
      match pyParseInt (parts.getD 2 []) with
      | some n => 7 + n
      | none => 9999
    else 9999
  else 9999

/-! ## Scheduler lemmas (claims C1, C2, C10) -/

/-- Spec-side description (following the claim wording) of the schedule for an
even-length chain: each front pair `(S0, S1)` contributes a STORE on the day
of `S0`, a STORE on the day of `S1`, and one DELIVER on the day of `S1` with
the concatenated items and the label `"S0+S1"`. -/
def specEvenPairSchedule (fixed_schedule : String → String) :
    List (String × List String) → List (String × ScheduleAction)
  | (s0, it0) :: (s1, it1) :: rest =>
    (fixed_schedule s0, ⟨ActionType.STORE, it0, s0⟩) ::
    (fixed_schedule s1, ⟨ActionType.STORE, it1, s1⟩) ::
    (fixed_schedule s1, ⟨ActionType.DELIVER, it0 ++ it1, s0 ++ "+" ++ s1⟩) ::
    specEvenPairSchedule fixed_schedule rest
  | _ => []

/-- On an even-length prefix of all-nonempty groups, `build_house_schedule`
emits exactly the paired actions and then continues with the rest. -/
theorem build_pairs (fs : String → String) (house : House) :
    ∀ (ys tail : List (String × List String)), ys.length % 2 = 0 →
      (∀ g ∈ ys, g.2 ≠ []) →
      build_house_schedule house (ys ++ tail) fs =
        specEvenPairSchedule fs ys ++ build_house_schedule house tail fs
  | [], _, _, _ => by simp [specEvenPairSchedule]
  | [_], _, h, _ => by simp at h
  | g0 :: g1 :: ys, tail, h, hne => by
    obtain ⟨s0, it0⟩ := g0
    obtain ⟨s1, it1⟩ := g1
    have hy : ys.length % 2 = 0 := by
      simp only [List.length_cons] at h; omega
    have ih := build_pairs fs house ys tail hy (fun g hg => hne g (by simp [hg]))
    have h0 : it0 ≠ [] := hne (s0, it0) (by simp)
    have h1 : it1 ≠ [] := hne (s1, it1) (by simp)
    simp [build_house_schedule, specEvenPairSchedule, h0, h1, ih]

/-- Every entry `appendItem` produces has a nonempty item list, provided the
existing entries do. -/
theorem appendItem_ne (s item : String) :
    ∀ m : List (String × List String), (∀ p ∈ m, p.2 ≠ []) →
      ∀ p ∈ appendItem m s item, p.2 ≠ []
  | [], _ => by simp [appendItem]
  | (k, v) :: rest, hm => by
    intro p hp
    by_cases hk : k = s
    · simp only [appendItem, if_pos hk, List.mem_cons] at hp
      rcases hp with rfl | hp
      · simp
      · exact hm p (by simp [hp])
    · simp only [appendItem, if_neg hk, List.mem_cons] at hp
      rcases hp with rfl | hp
      · exact hm (k, v) (by simp)
      · exact appendItem_ne s item rest (fun q hq => hm q (by simp [hq])) p hp

/-- Every entry of the chain map has a nonempty item list. -/
theorem chainMap_ne (fo : List (String × Nat)) :
    ∀ (prs : List Product) (m : List (String × List String)),
      (∀ p ∈ m, p.2 ≠ []) → ∀ p ∈ prs.foldl (chainStep fo) m, p.2 ≠ []
  | [], _, hm => hm
  | pr :: prs, m, hm => by
    have hstep : ∀ p ∈ chainStep fo m pr, p.2 ≠ [] := by
      unfold chainStep
      cases chainBestLoop fo pr.stores none none with
      | none => exact hm
      | some s =>
        by_cases hc : s ≠ "" ∧ 0 < pr.quantity
        · simpa [hc] using appendItem_ne s (itemStr pr) m hm
        · simpa [hc] using hm
    exact chainMap_ne fo prs (chainStep fo m pr) hstep

/-- Every group of a household chain has a nonempty item list. -/
theorem chain_items_ne (house : House) (stores : List StoreObj)
    (fo : List (String × Nat)) :
    ∀ g ∈ compute_house_chain house stores fo, g.2 ≠ [] := by
  intro g hg
  have hperm := List.perm_insertionSort
    (fun a b => foGet fo a.1 9999 ≤ foGet fo b.1 9999)
    (chainMapOf fo house.products)
  exact chainMap_ne fo house.products [] (by simp) g (hperm.mem_iff.mp hg)

/-- Every action `build_house_schedule` ever emits carries a nonempty item
list (each emission site is guarded by a nonemptiness test). -/
theorem build_items_ne (fs : String → String) (house : House) :
    ∀ chain, ∀ p ∈ build_house_schedule house chain fs, p.2.items ≠ []
  | [] => by simp [build_house_schedule]
  | [(s, it)] => by
    intro p hp
    by_cases h : it = [] <;> simp [build_house_schedule, h] at hp
    rcases hp with rfl | rfl <;> simpa using h
  | (s0, it0) :: (s1, it1) :: rest => by
    intro p hp
    have ih := build_items_ne fs house rest
    simp only [build_house_schedule] at hp
    rcases List.mem_append.mp hp with hp | hp
    · rcases List.mem_append.mp hp with hp | hp
      · rcases List.mem_append.mp hp with hp | hp
        · split at hp
          · next h0 =>
            simp only [List.mem_singleton] at hp
            subst hp; simpa using h0
          · simp at hp
        · split at hp
          · next h1 =>
            simp only [List.mem_singleton] at hp
            subst hp; simpa using h1
          · simp at hp
      · split at hp
        · next hc =>
          simp only [List.mem_singleton] at hp
          subst hp; simpa using hc
        · simp at hp
    · exact ih p hp

/-- C1: for a household whose chain has even length, the Scheduler walks the
chain in non-overlapping front pairs `(S0, S1)`, emitting a STORE with the
items of `S0` on the day of `S0`, a STORE with the items of `S1` on the day
of `S1`, and exactly one DELIVER on the day of `S1` whose item list is the
items of `S0` followed by those of `S1` and whose label is `"S0+S1"`. -/
theorem scheduler_even_pairs (house : House) (stores : List StoreObj)
    (fo : List (String × Nat)) (fs : String → String)
    (heven : (compute_house_chain house stores fo).length % 2 = 0) :
    build_house_schedule house (compute_house_chain house stores fo) fs =
      specEvenPairSchedule fs (compute_house_chain house stores fo) := by
  have h := build_pairs fs house (compute_house_chain house stores fo) [] heven
    (fun g hg => chain_items_ne house stores fo g hg)
  simpa [build_house_schedule] using h

/-- Witness fixtures: the concrete scenario of the spec (three stores ranked
A, B, C; items `X x1` at A, `Y x2` at B, `Z x1` at C). -/
def egFo : List (String × Nat) := [("A", 1), ("B", 2), ("C", 3)]

/-- Two-store household: its chain `[("A", ["X x1"]), ("B", ["Y x2"])]` has
even length. -/
def egHouse : House := ⟨"H2", [⟨"X", 1, 1, ["A"]⟩, ⟨"Y", 2, 2, ["B"]⟩]⟩

/-- Three-store household: its chain has odd length. -/
def egHouse3 : House :=
  ⟨"H3", [⟨"X", 1, 1, ["A"]⟩, ⟨"Y", 2, 2, ["B"]⟩, ⟨"Z", 1, 5, ["C"]⟩]⟩

theorem scheduler_even_pairs_witness :
    build_house_schedule egHouse (compute_house_chain egHouse [] egFo) (fun s => s) =
      specEvenPairSchedule (fun s => s) (compute_house_chain egHouse [] egFo) :=
  scheduler_even_pairs egHouse [] egFo (fun s => s) (by decide)

/-- C2: for a household whose chain has odd length, the final group is
emitted on its own day as a STORE followed by a DELIVER with the same items
and store name, after the paired actions of the even prefix; a chain of
length 0 produces no actions (length 1 is the case of an empty prefix). -/
theorem scheduler_odd_leftover (house : House) (stores : List StoreObj)
    (fo : List (String × Nat)) (fs : String → String) :
    ((compute_house_chain house stores fo).length % 2 = 1 →
      ∃ ys g, compute_house_chain house stores fo = ys ++ [g] ∧
        build_house_schedule house (compute_house_chain house stores fo) fs =
          specEvenPairSchedule fs ys ++
            [(fs g.1, ⟨ActionType.STORE, g.2, g.1⟩),
             (fs g.1, ⟨ActionType.DELIVER, g.2, g.1⟩)]) ∧
    (compute_house_chain house stores fo = [] →
      build_house_schedule house (compute_house_chain house stores fo) fs = []) := by
  have hne := chain_items_ne house stores fo
  constructor
  · intro hodd
    have hn : compute_house_chain house stores fo ≠ [] := by
      intro h; rw [h] at hodd; simp at hodd
    obtain ⟨ys, g, hsplit⟩ :
        ∃ ys g, compute_house_chain house stores fo = ys ++ [g] :=
      ⟨_, _, (List.dropLast_append_getLast hn).symm⟩
    refine ⟨ys, g, hsplit, ?_⟩
    have hys : ys.length % 2 = 0 := by
      rw [hsplit] at hodd; simp [List.length_append] at hodd; omega
    have hstep := build_pairs fs house ys [g] hys
      (fun gr hgr => hne gr (by rw [hsplit]; exact List.mem_append_left _ hgr))
    have hg : g.2 ≠ [] := hne g (by rw [hsplit]; simp)
    have hlast : build_house_schedule house [g] fs =
        [(fs g.1, ⟨ActionType.STORE, g.2, g.1⟩),
         (fs g.1, ⟨ActionType.DELIVER, g.2, g.1⟩)] := by
      obtain ⟨s, it⟩ := g
      simp only [ne_eq] at hg
      simp [build_house_schedule, hg]
    rw [hsplit, hstep, hlast]
  · intro h; rw [h]; rfl

theorem scheduler_odd_leftover_witness :
    ∃ ys g, compute_house_chain egHouse3 [] egFo = ys ++ [g] ∧
      build_house_schedule egHouse3 (compute_house_chain egHouse3 [] egFo) (fun s => s) =
        specEvenPairSchedule (fun s => s) ys ++
          [((fun s => s) g.1, ⟨ActionType.STORE, g.2, g.1⟩),
           ((fun s => s) g.1, ⟨ActionType.DELIVER, g.2, g.1⟩)] :=
  (scheduler_odd_leftover egHouse3 [] egFo (fun s => s)).1 (by decide)

/-- C10: every group of a household chain carries a nonempty item list, and
every DELIVER action the Scheduler emits for the household carries a nonempty
item list. -/
theorem chain_groups_and_delivers_nonempty (house : House) (stores : List StoreObj)
    (fo : List (String × Nat)) (fs : String → String) :
    (∀ g ∈ compute_house_chain house stores fo, g.2 ≠ []) ∧
    (∀ p ∈ build_house_schedule house (compute_house_chain house stores fo) fs,
        p.2.action_type = ActionType.DELIVER → p.2.items ≠ []) :=
  ⟨chain_items_ne house stores fo,
   fun p hp _ => build_items_ne fs house (compute_house_chain house stores fo) p hp⟩

theorem chain_groups_and_delivers_nonempty_witness :
    (("A", ["X x1"]) : String × List String).2 ≠ [] :=
  (chain_groups_and_delivers_nonempty egHouse [] egFo (fun s => s)).1
    ("A", ["X x1"]) (by decide)

/-! ## Best-store selection lemmas (claims C3, C4, C5) -/

/-- The running minimum the selection loop maintains once a first candidate
has been adopted (proof-side reformulation of the loop). -/
def minFold (fo : List (String × Nat)) (b : String) (cands : List String) : String :=
  cands.foldl (fun acc t => if foGet fo t 9999 < foGet fo acc 9999 then t else acc) b

/-- Once the loop holds a best store `b` with its own rank, it computes the
running minimum. -/
theorem chainBestLoop_eq_minFold (fo : List (String × Nat)) :
    ∀ (cands : List String) (b : String),
      chainBestLoop fo cands (some b) (some (foGet fo b 9999)) =
        some (minFold fo b cands)
  | [], _ => rfl
  | s :: rest, b => by
    unfold chainBestLoop
    by_cases h : foGet fo s 9999 < foGet fo b 9999
    · simp only [ltInf, decide_eq_true_eq, if_pos h]
      rw [chainBestLoop_eq_minFold fo rest s]
      simp [minFold, h]
    · simp only [ltInf, decide_eq_true_eq, if_neg h]
      rw [chainBestLoop_eq_minFold fo rest b]
      simp [minFold, h]

/-- On a nonempty candidate list the loop returns the running minimum seeded
with the first candidate (the initial `float("inf")` always loses). -/
theorem chainBestLoop_cons (fo : List (String × Nat)) (c : String) (cs : List String) :
    chainBestLoop fo (c :: cs) none none = some (minFold fo c cs) := by
  unfold chainBestLoop
  simp only [ltInf, if_pos rfl]
  exact chainBestLoop_eq_minFold fo cs c

/-- The running minimum is one of the candidates. -/
theorem minFold_mem (fo : List (String × Nat)) :
    ∀ (cands : List String) (b : String), minFold fo b cands ∈ b :: cands
  | [], b => by simp [minFold]
  | t :: ts, b => by
    by_cases h : foGet fo t 9999 < foGet fo b 9999
    · have key : minFold fo b (t :: ts) = minFold fo t ts := by simp [minFold, h]
      rw [key]
      exact List.mem_cons_of_mem b (minFold_mem fo ts t)
    · have key : minFold fo b (t :: ts) = minFold fo b ts := by simp [minFold, h]
      rw [key]
      rcases List.mem_cons.mp (minFold_mem fo ts b) with h' | h'
      · rw [h']; exact List.mem_cons_self b _
      · exact List.mem_cons_of_mem b (List.mem_cons_of_mem t h')

/-- The running minimum has the smallest rank among the seed and the
candidates. -/
theorem minFold_le (fo : List (String × Nat)) :
    ∀ (cands : List String) (b t : String), t ∈ b :: cands →
      foGet fo (minFold fo b cands) 9999 ≤ foGet fo t 9999
  | [], b, t, ht => by
    rcases List.mem_cons.mp ht with rfl | h'
    · simp [minFold]
    · simp at h'
  | c :: cs, b, t, ht => by
    by_cases h : foGet fo c 9999 < foGet fo b 9999
    · have key : minFold fo b (c :: cs) = minFold fo c cs := by simp [minFold, h]
      rw [key]
      rcases List.mem_cons.mp ht with heq | ht'
      · have h1 := minFold_le fo cs c c (List.mem_cons_self c cs)
        rw [heq]
        omega
      · rcases List.mem_cons.mp ht' with heq | ht''
        · rw [heq]; exact minFold_le fo cs c c (List.mem_cons_self c cs)
        · exact minFold_le fo cs c t (List.mem_cons_of_mem c ht'')
    · have key : minFold fo b (c :: cs) = minFold fo b cs := by simp [minFold, h]
      rw [key]
      rcases List.mem_cons.mp ht with heq | ht'
      · rw [heq]; exact minFold_le fo cs b b (List.mem_cons_self b cs)
      · rcases List.mem_cons.mp ht' with heq | ht''
        · rw [heq]
          have h1 := minFold_le fo cs b b (List.mem_cons_self b cs)
          omega
        · exact minFold_le fo cs b t (List.mem_cons_of_mem b ht'')

/-- A store the loop selects is one of the candidates. -/
theorem chainBestLoop_mem (fo : List (String × Nat)) (cands : List String)
    (s : String) (h : chainBestLoop fo cands none none = some s) : s ∈ cands := by
  cases cands with
  | nil => simp [chainBestLoop] at h
  | cons c cs =>
    rw [chainBestLoop_cons] at h
    obtain rfl : minFold fo c cs = s := Option.some.inj h
    exact minFold_mem fo cs c

/-- `appendItem` stores the new item under its key. -/
theorem appendItem_mem_self (s item : String) :
    ∀ m : List (String × List String),
      ∃ v, (s, v) ∈ appendItem m s item ∧ item ∈ v
  | [] => ⟨[item], by simp [appendItem]⟩
  | (k, w) :: rest => by
    by_cases hk : k = s
    · subst hk
      exact ⟨w ++ [item], by simp [appendItem], by simp⟩
    · obtain ⟨v, hv, hm⟩ := appendItem_mem_self s item rest
      exact ⟨v, by simp only [appendItem, if_neg hk, List.mem_cons]; exact Or.inr hv, hm⟩

/-- `appendItem` on a matching head key extends that entry. -/
theorem appendItem_cons_eq (k s item : String) (u : List String)
    (rest : List (String × List String)) (hk : k = s) :
    appendItem ((k, u) :: rest) s item = (k, u ++ [item]) :: rest := by
  simp [appendItem, hk]

/-- `appendItem` on a non-matching head key keeps the head and recurses. -/
theorem appendItem_cons_ne (k s item : String) (u : List String)
    (rest : List (String × List String)) (hk : ¬k = s) :
    appendItem ((k, u) :: rest) s item = (k, u) :: appendItem rest s item := by
  simp [appendItem, hk]

/-- An item already recorded under some key survives an `appendItem`. -/
theorem appendItem_mem_mono (t item x s : String) :
    ∀ (m : List (String × List String)) (v : List String),
      (s, v) ∈ m → x ∈ v → ∃ w, (s, w) ∈ appendItem m t item ∧ x ∈ w
  | [], v, hv, _ => by simp at hv
  | (k, u) :: rest, v, hv, hx => by
    by_cases hk : k = t
    · rw [appendItem_cons_eq k t item u rest hk]
      rcases List.mem_cons.mp hv with heq | hv'
      · have h1 : s = k := congrArg Prod.fst heq
        have h2 : v = u := congrArg Prod.snd heq
        subst h1; subst h2
        exact ⟨v ++ [item], List.mem_cons_self _ _, List.mem_append_left _ hx⟩
      · exact ⟨v, List.mem_cons_of_mem _ hv', hx⟩
    · rw [appendItem_cons_ne k t item u rest hk]
      rcases List.mem_cons.mp hv with heq | hv'
      · exact ⟨v, heq ▸ List.mem_cons_self _ _, hx⟩
      · obtain ⟨w, hw, hxw⟩ := appendItem_mem_mono t item x s rest v hv' hx
        exact ⟨w, List.mem_cons_of_mem _ hw, hxw⟩

/-- An item already recorded in the chain map survives the rest of the fold. -/
theorem chainFold_mem_mono (fo : List (String × Nat)) (x s : String) :
    ∀ (prs : List Product) (m : List (String × List String)) (v : List String),
      (s, v) ∈ m → x ∈ v →
      ∃ w, (s, w) ∈ prs.foldl (chainStep fo) m ∧ x ∈ w
  | [], _, v, hv, hx => ⟨v, hv, hx⟩
  | pr :: prs, m, v, hv, hx => by
    have step : ∃ w, (s, w) ∈ chainStep fo m pr ∧ x ∈ w := by
      unfold chainStep
      cases chainBestLoop fo pr.stores none none with
      | none => exact ⟨v, hv, hx⟩
      | some bs =>
        by_cases hc : bs ≠ "" ∧ 0 < pr.quantity
        · simp only [if_pos hc]
          exact appendItem_mem_mono bs (itemStr pr) x s m v hv hx
        · simp only [if_neg hc]
          exact ⟨v, hv, hx⟩
    obtain ⟨w, hw, hxw⟩ := step
    exact chainFold_mem_mono fo x s prs _ w hw hxw

/-- The chain map records the item of every product whose selected store is
nonempty-named and whose quantity is positive, under that store. -/
theorem chainMap_mem_item (fo : List (String × Nat)) (prs : List Product)
    (pr : Product) (s : String) (hmem : pr ∈ prs)
    (hbest : chainBestLoop fo pr.stores none none = some s)
    (hs : s ≠ "") (hq : 0 < pr.quantity) :
    ∃ v, (s, v) ∈ chainMapOf fo prs ∧ itemStr pr ∈ v := by
  obtain ⟨l1, l2, rfl⟩ := List.append_of_mem hmem
  unfold chainMapOf
  rw [List.foldl_append, List.foldl_cons]
  have hstep : ∃ v, (s, v) ∈ chainStep fo (l1.foldl (chainStep fo) []) pr ∧
      itemStr pr ∈ v := by
    unfold chainStep
    rw [hbest]
    simp only [if_pos (And.intro hs hq)]
    exact appendItem_mem_self s (itemStr pr) _
  obtain ⟨v, hv, hxv⟩ := hstep
  exact chainFold_mem_mono fo (itemStr pr) s l2 _ v hv hxv

/-- C3: a line item with a nonempty candidate set, all candidates carrying a
rank in `fixed_order` with no rank ties, is assigned by the Allocator to the
unique candidate store of minimum visiting-order rank; the item string is
recorded under that store in the household chain. -/
theorem allocator_min_rank_selection (house : House) (stores : List StoreObj)
    (fo : List (String × Nat)) (pr : Product)
    (hpr : pr ∈ house.products) (hq : 0 < pr.quantity)
    (hne : pr.stores ≠ []) (hnn : "" ∉ pr.stores)
    (hranked : ∀ s ∈ pr.stores, (dictFind fo s).isSome)
    (hinj : ∀ s ∈ pr.stores, ∀ t ∈ pr.stores,
      foGet fo s 9999 = foGet fo t 9999 → s = t) :
    ∃ s, chainBestLoop fo pr.stores none none = some s ∧ s ∈ pr.stores ∧
      (∀ t ∈ pr.stores, t ≠ s → foGet fo s 9999 < foGet fo t 9999) ∧
      ∃ items, (s, items) ∈ compute_house_chain house stores fo ∧
        itemStr pr ∈ items := by
  obtain ⟨c, cs, hcons⟩ := List.exists_cons_of_ne_nil hne
  have hbest : chainBestLoop fo pr.stores none none = some (minFold fo c cs) := by
    rw [hcons]; exact chainBestLoop_cons fo c cs
  refine ⟨minFold fo c cs, hbest, ?_, ?_, ?_⟩
  · rw [hcons]; exact minFold_mem fo cs c
  · intro t ht htne
    have hle : foGet fo (minFold fo c cs) 9999 ≤ foGet fo t 9999 := by
      rw [hcons] at ht; exact minFold_le fo cs c t ht
    refine lt_of_le_of_ne hle (fun heq => htne ?_)
    have hsmem : minFold fo c cs ∈ pr.stores := by
      rw [hcons]; exact minFold_mem fo cs c
    exact (hinj t ht (minFold fo c cs) hsmem heq.symm)
  · have hsmem : minFold fo c cs ∈ pr.stores := by
      rw [hcons]; exact minFold_mem fo cs c
    have hsnn : minFold fo c cs ≠ "" := fun h => hnn (h ▸ hsmem)
    obtain ⟨v, hv, hxv⟩ :=
      chainMap_mem_item fo house.products pr (minFold fo c cs) hpr hbest hsnn hq
    have hperm := List.perm_insertionSort
      (fun a b => foGet fo a.1 9999 ≤ foGet fo b.1 9999)
      (chainMapOf fo house.products)
    exact ⟨v, hperm.mem_iff.mpr hv, hxv⟩

/-- The first line item of the two-store example household. -/
def egPr : Product := ⟨"X", 1, 1, ["A"]⟩

theorem allocator_min_rank_selection_witness :
    ∃ s, chainBestLoop egFo egPr.stores none none = some s ∧ s ∈ egPr.stores ∧
      (∀ t ∈ egPr.stores, t ≠ s → foGet egFo s 9999 < foGet egFo t 9999) ∧
      ∃ items, (s, items) ∈ compute_house_chain egHouse [] egFo ∧
        itemStr egPr ∈ items :=
  allocator_min_rank_selection egHouse [] egFo egPr (by decide) (by decide)
    (by decide) (by decide) (by decide) (by decide)

/-- `chainStep` when the loop selects a store. -/
theorem chainStep_some (fo : List (String × Nat)) (m : List (String × List String))
    (pr : Product) (bs : String)
    (hb : chainBestLoop fo pr.stores none none = some bs) :
    chainStep fo m pr =
      if bs ≠ "" ∧ 0 < pr.quantity then appendItem m bs (itemStr pr) else m := by
  unfold chainStep
  rw [hb]

/-- `chainStep` when the loop selects nothing. -/
theorem chainStep_none (fo : List (String × Nat)) (m : List (String × List String))
    (pr : Product) (hb : chainBestLoop fo pr.stores none none = none) :
    chainStep fo m pr = m := by
  unfold chainStep
  rw [hb]

/-- A key of an `appendItem` result is an old key or the appended key. -/
theorem appendItem_keys (s item : String) :
    ∀ (m : List (String × List String)) (t : String),
      t ∈ (appendItem m s item).map Prod.fst → t ∈ m.map Prod.fst ∨ t = s
  | [], t, ht => by
    simp [appendItem] at ht
    exact Or.inr ht
  | (k, v) :: rest, t, ht => by
    by_cases hk : k = s
    · rw [appendItem_cons_eq k s item v rest hk] at ht
      simp only [List.map_cons, List.mem_cons] at ht ⊢
      exact Or.inl ht
    · rw [appendItem_cons_ne k s item v rest hk] at ht
      simp only [List.map_cons, List.mem_cons] at ht ⊢
      rcases ht with heq | ht
      · exact Or.inl (Or.inl heq)
      · rcases appendItem_keys s item rest t ht with h | h
        · exact Or.inl (Or.inr h)
        · exact Or.inr h

/-- `appendItem` keeps the keys of the map duplicate-free. -/
theorem appendItem_keys_nodup (s item : String) :
    ∀ m : List (String × List String),
      ((m.map Prod.fst).Nodup) → (((appendItem m s item).map Prod.fst).Nodup)
  | [], _ => by simp [appendItem]
  | (k, v) :: rest, hnd => by
    simp only [List.map_cons, List.nodup_cons] at hnd
    by_cases hk : k = s
    · rw [appendItem_cons_eq k s item v rest hk]
      simp only [List.map_cons, List.nodup_cons]
      exact hnd
    · rw [appendItem_cons_ne k s item v rest hk]
      simp only [List.map_cons, List.nodup_cons]
      refine ⟨?_, appendItem_keys_nodup s item rest hnd.2⟩
      intro hkmem
      rcases appendItem_keys s item rest k hkmem with h | h
      · exact hnd.1 h
      · exact hk h

/-- The chain map has duplicate-free keys. -/
theorem chainMap_keys_nodup (fo : List (String × Nat)) :
    ∀ (prs : List Product) (m : List (String × List String)),
      ((m.map Prod.fst).Nodup) →
      (((prs.foldl (chainStep fo) m).map Prod.fst).Nodup)
  | [], _, h => h
  | pr :: prs, m, h => by
    apply chainMap_keys_nodup fo prs
    unfold chainStep
    cases chainBestLoop fo pr.stores none none with
    | none => exact h
    | some bs =>
      by_cases hc : bs ≠ "" ∧ 0 < pr.quantity
      · simpa [hc] using appendItem_keys_nodup bs (itemStr pr) m h
      · simpa [hc] using h

/-- Every key of the chain map is a candidate store of some processed line
item (or a key already present in the accumulator). -/
theorem chainMap_keys_src (fo : List (String × Nat)) :
    ∀ (prs : List Product) (m : List (String × List String)) (t : String),
      t ∈ ((prs.foldl (chainStep fo) m).map Prod.fst) →
      t ∈ m.map Prod.fst ∨ ∃ pr ∈ prs, t ∈ pr.stores
  | [], _, t, ht => Or.inl ht
  | pr :: prs, m, t, ht => by
    rcases chainMap_keys_src fo prs (chainStep fo m pr) t ht with h | h
    · cases hb : chainBestLoop fo pr.stores none none with
      | none => rw [chainStep_none fo m pr hb] at h; exact Or.inl h
      | some bs =>
        rw [chainStep_some fo m pr bs hb] at h
        by_cases hc : bs ≠ "" ∧ 0 < pr.quantity
        · rw [if_pos hc] at h
          rcases appendItem_keys bs (itemStr pr) m t h with h' | h'
          · exact Or.inl h'
          · subst h'
            exact Or.inr ⟨pr, List.mem_cons_self pr prs,
              chainBestLoop_mem fo pr.stores t hb⟩
        · rw [if_neg hc] at h
          exact Or.inl h
    · obtain ⟨q, hq, hqt⟩ := h
      exact Or.inr ⟨q, List.mem_cons_of_mem pr hq, hqt⟩

/-- C4: under rank injectivity over the candidate stores of the household,
the chain lists its groups in strictly increasing visiting-order rank, and no
store appears in more than one group. -/
theorem chain_sorted_nodup (house : House) (stores : List StoreObj)
    (fo : List (String × Nat))
    (hinj : ∀ pr ∈ house.products, ∀ s ∈ pr.stores,
      ∀ pr' ∈ house.products, ∀ t ∈ pr'.stores,
      foGet fo s 9999 = foGet fo t 9999 → s = t) :
    List.Pairwise (fun g1 g2 => foGet fo g1.1 9999 < foGet fo g2.1 9999)
      (compute_house_chain house stores fo) ∧
    ((compute_house_chain house stores fo).map Prod.fst).Nodup := by
  have hperm := List.perm_insertionSort
    (fun a b => foGet fo a.1 9999 ≤ foGet fo b.1 9999)
    (chainMapOf fo house.products)
  have hnd : ((compute_house_chain house stores fo).map Prod.fst).Nodup := by
    have h1 := chainMap_keys_nodup fo house.products [] (by simp)
    exact ((hperm.map Prod.fst).nodup_iff).mpr h1
  refine ⟨?_, hnd⟩
  have hsorted : List.Pairwise
      (fun g1 g2 : String × List String =>
        foGet fo g1.1 9999 ≤ foGet fo g2.1 9999)
      (compute_house_chain house stores fo) := by
    haveI : IsTotal (String × List String)
        (fun a b => foGet fo a.1 9999 ≤ foGet fo b.1 9999) :=
      ⟨fun a b => Nat.le_total _ _⟩
    haveI : IsTrans (String × List String)
        (fun a b => foGet fo a.1 9999 ≤ foGet fo b.1 9999) :=
      ⟨fun _ _ _ hab hbc => le_trans hab hbc⟩
    exact List.sorted_insertionSort _ _
  have hne_pw : List.Pairwise (fun g1 g2 : String × List String => g1.1 ≠ g2.1)
      (compute_house_chain house stores fo) := List.pairwise_map.mp hnd
  have horigin : ∀ g ∈ compute_house_chain house stores fo,
      ∃ pr ∈ house.products, g.1 ∈ pr.stores := by
    intro g hg
    have hk : g.1 ∈ (chainMapOf fo house.products).map Prod.fst :=
      List.mem_map_of_mem Prod.fst (hperm.mem_iff.mp hg)
    rcases chainMap_keys_src fo house.products [] g.1 hk with h | h
    · simp at h
    · exact h
  refine List.Pairwise.imp_of_mem ?_ (hsorted.and hne_pw)
  intro a b ha hb hab
  refine lt_of_le_of_ne hab.1 (fun heq => hab.2 ?_)
  obtain ⟨pra, hpra, hsa⟩ := horigin a ha
  obtain ⟨prb, hprb, hsb⟩ := horigin b hb
  exact hinj pra hpra a.1 hsa prb hprb b.1 hsb heq

theorem chain_sorted_nodup_witness :
    List.Pairwise (fun g1 g2 => foGet egFo g1.1 9999 < foGet egFo g2.1 9999)
      (compute_house_chain egHouse3 [] egFo) ∧
    ((compute_house_chain egHouse3 [] egFo).map Prod.fst).Nodup :=
  chain_sorted_nodup egHouse3 [] egFo (by decide)

/-- The two duplicated selection loops agree from any loop state. -/
theorem bestLoop_eq_aux (fo : List (String × Nat)) :
    ∀ (cands : List String) (bs : Option String) (bp : Option Nat),
      costsBestLoop fo cands bs bp = chainBestLoop fo cands bs bp
  | [], _, _ => rfl
  | s :: rest, bs, bp => by
    unfold costsBestLoop chainBestLoop
    by_cases h : ltInf (foGet fo s 9999) bp = true
    · rw [if_pos h, if_pos h]; exact bestLoop_eq_aux fo rest _ _
    · rw [if_neg h, if_neg h]; exact bestLoop_eq_aux fo rest bs bp

/-- C5: the best-candidate store the Aggregator recomputes in its per-store
cost pass equals the store the Allocator selects, for every candidate list
and from every loop state; in particular both passes attribute every line
item to the same store. -/
theorem aggregator_allocator_same_selection (fo : List (String × Nat))
    (cands : List String) (bs : Option String) (bp : Option Nat) :
    costsBestLoop fo cands bs bp = chainBestLoop fo cands bs bp :=
  bestLoop_eq_aux fo cands bs bp

/-! ## Cost lemmas (claims C6, C7) -/

/-- The exact cost mass of a list of line items. -/
def prodSum (prs : List Product) : Rat :=
  (prs.map (fun pr => pr.cost * (pr.quantity : Rat))).sum

theorem prodSum_nil : prodSum [] = 0 := rfl

theorem prodSum_cons (pr : Product) (prs : List Product) :
    prodSum (pr :: prs) = pr.cost * (pr.quantity : Rat) + prodSum prs := by
  simp [prodSum]

theorem prodSum_append (l1 l2 : List Product) :
    prodSum (l1 ++ l2) = prodSum l1 + prodSum l2 := by
  simp [prodSum]

/-- The plain cost fold adds the cost mass to its accumulator. -/
theorem cost_foldl_eq (prs : List Product) :
    ∀ t0 : Rat,
      prs.foldl (fun t pr => t + pr.cost * (pr.quantity : Rat)) t0 = t0 + prodSum prs := by
  induction prs with
  | nil => intro t0; simp [prodSum]
  | cons pr prs ih =>
    intro t0
    rw [List.foldl_cons, ih, prodSum_cons]
    ring

/-- `compute_total_cost` is the total cost mass of all households. -/
theorem compute_total_cost_eq (houses : List House) :
    compute_total_cost houses = (houses.map (fun h => prodSum h.products)).sum := by
  unfold compute_total_cost
  suffices h : ∀ t0 : Rat, houses.foldl (fun total h =>
      h.products.foldl (fun t pr => t + pr.cost * (pr.quantity : Rat)) total) t0 =
      t0 + (houses.map (fun h => prodSum h.products)).sum by
    simpa using h 0
  induction houses with
  | nil => intro t0; simp
  | cons h hs ih =>
    intro t0
    rw [List.foldl_cons, cost_foldl_eq, ih]
    simp [add_assoc]

theorem costs_inner_nil (fo : List (String × Nat)) (acc : Rat × List (String × Rat)) :
    costs_inner fo [] acc = acc := rfl

theorem costs_inner_cons (fo : List (String × Nat)) (pr : Product) (prs : List Product)
    (acc : Rat × List (String × Rat)) :
    costs_inner fo (pr :: prs) acc =
      costs_inner fo prs
        (acc.1 + pr.cost * (pr.quantity : Rat),
         match costsBestLoop fo pr.stores none none with
         | some best_s =>
           if best_s ≠ "" then
             dictSet acc.2 best_s (scGet acc.2 best_s + pr.cost * (pr.quantity : Rat))
           else acc.2
         | none => acc.2) := rfl

theorem costs_inner_append (fo : List (String × Nat)) (l1 l2 : List Product)
    (acc : Rat × List (String × Rat)) :
    costs_inner fo (l1 ++ l2) acc = costs_inner fo l2 (costs_inner fo l1 acc) := by
  unfold costs_inner
  rw [List.foldl_append]

/-- The household total the inner loop accumulates is the cost mass,
independently of the store-costs component. -/
theorem costs_inner_fst (fo : List (String × Nat)) :
    ∀ (prs : List Product) (acc : Rat × List (String × Rat)),
      (costs_inner fo prs acc).1 = acc.1 + prodSum prs
  | [], acc => by simp [costs_inner_nil, prodSum]
  | pr :: prs, acc => by
    rw [costs_inner_cons, costs_inner_fst fo prs, prodSum_cons]
    ring

/-- The store-costs component of the inner loop does not depend on the
running household total. -/
theorem costs_inner_snd_indep (fo : List (String × Nat)) :
    ∀ (prs : List Product) (t t' : Rat) (sc : List (String × Rat)),
      (costs_inner fo prs (t, sc)).2 = (costs_inner fo prs (t', sc)).2
  | [], _, _, _ => rfl
  | pr :: prs, t, t', sc => by
    rw [costs_inner_cons, costs_inner_cons]
    exact costs_inner_snd_indep fo prs _ _ _

/-- Writing a fresh key appends the entry at the end. -/
theorem dictSet_fresh {β : Type} (k : String) (v : β) :
    ∀ m : List (String × β), k ∉ m.map Prod.fst → dictSet m k v = m ++ [(k, v)]
  | [], _ => rfl
  | (k', w) :: rest, hk => by
    simp only [List.map_cons, List.mem_cons] at hk
    push_neg at hk
    unfold dictSet
    rw [if_neg (fun h => hk.1 h.symm), dictSet_fresh k v rest hk.2]
    simp

/-- Folding `compute_costs` over households with fresh, duplicate-free ids
accumulates exactly one entry per household, so the value sum grows by the
cost mass of each household. -/
theorem compute_costs_fold_sum (fo : List (String × Nat)) :
    ∀ (houses : List House) (hc sc : List (String × Rat)),
      (houses.map House.house_number).Nodup →
      (∀ h ∈ houses, h.house_number ∉ hc.map Prod.fst) →
      ((houses.foldl (fun acc h =>
          let inner := costs_inner fo h.products (0, acc.2)
          (dictSet acc.1 h.house_number inner.1, inner.2)) (hc, sc)).1.map Prod.snd).sum =
        (hc.map Prod.snd).sum + (houses.map (fun h => prodSum h.products)).sum
  | [], hc, sc, _, _ => by simp
  | h :: hs, hc, sc, hnd, hfresh => by
    simp only [List.map_cons, List.nodup_cons] at hnd
    rw [List.foldl_cons]
    have hid : h.house_number ∉ hc.map Prod.fst := hfresh h (List.mem_cons_self h hs)
    have hset := dictSet_fresh h.house_number
      ((costs_inner fo h.products (0, sc)).1) hc hid
    have hfresh' : ∀ h' ∈ hs, h'.house_number ∉
        ((dictSet hc h.house_number ((costs_inner fo h.products (0, sc)).1)).map Prod.fst) := by
      intro h' hh'
      rw [hset]
      simp only [List.map_append, List.mem_append, List.map_cons, List.map_nil,
        List.mem_singleton]
      push_neg
      refine ⟨hfresh h' (List.mem_cons_of_mem h hh'), fun heq => hnd.1 ?_⟩
      rw [← heq]
      exact List.mem_map_of_mem House.house_number hh'
    have ih := compute_costs_fold_sum fo hs
      (dictSet hc h.house_number ((costs_inner fo h.products (0, sc)).1))
      ((costs_inner fo h.products (0, sc)).2) hnd.2 hfresh'
    dsimp only at ih ⊢
    rw [ih, hset]
    rw [costs_inner_fst fo h.products (0, sc)]
    simp [add_assoc]

/-- C6: the per-household costs of `compute_costs` sum to
`compute_total_cost` (the households come from a dict, so their ids are
duplicate-free). -/
theorem house_costs_sum_eq_total (houses : List House) (fo : List (String × Nat))
    (hnd : (houses.map House.house_number).Nodup) :
    ((compute_costs houses fo).1.map Prod.snd).sum = compute_total_cost houses := by
  unfold compute_costs
  rw [compute_costs_fold_sum fo houses [] [] hnd (by simp), compute_total_cost_eq]
  simp

theorem house_costs_sum_eq_total_witness :
    ((compute_costs [egHouse, egHouse3] egFo).1.map Prod.snd).sum =
      compute_total_cost [egHouse, egHouse3] :=
  house_costs_sum_eq_total [egHouse, egHouse3] egFo (by decide)

theorem dictSet_nil {β : Type} (k : String) (v : β) : dictSet [] k v = [(k, v)] := rfl

/-- `build_house_schedule` never reads its `house` argument (the source keeps
the unused parameter). -/
theorem build_house_schedule_house_irrel (h1 h2 : House) (fs : String → String) :
    ∀ chain, build_house_schedule h1 chain fs = build_house_schedule h2 chain fs
  | [] => rfl
  | [(_, _)] => rfl
  | (s0, it0) :: (s1, it1) :: rest => by
    simp only [build_house_schedule]
    rw [build_house_schedule_house_irrel h1 h2 fs rest]

/-- The cost-pass step of a line item with no candidate store leaves the
store-costs dict unchanged. -/
theorem costs_step_empty (fo : List (String × Nat)) (pr : Product)
    (hempty : pr.stores = []) (sc : List (String × Rat)) :
    (match costsBestLoop fo pr.stores none none with
     | some best_s =>
       if best_s ≠ "" then
         dictSet sc best_s (scGet sc best_s + pr.cost * (pr.quantity : Rat))
       else sc
     | none => sc) = sc := by
  have hbc : costsBestLoop fo pr.stores none none = none := by rw [hempty]; rfl
  rw [hbc]

/-- C7: a line item with an empty candidate set adds nothing to the chain
(hence no schedule actions) and nothing to any store bucket, yet its cost
mass is present in the household cost and in the total cost. -/
theorem no_candidate_item_cost_only (stores : List StoreObj) (fo : List (String × Nat))
    (hn : String) (ps qs : List Product) (pr : Product) (hempty : pr.stores = []) :
    compute_house_chain ⟨hn, ps ++ pr :: qs⟩ stores fo =
      compute_house_chain ⟨hn, ps ++ qs⟩ stores fo ∧
    (∀ fs, build_house_schedule ⟨hn, ps ++ pr :: qs⟩
        (compute_house_chain ⟨hn, ps ++ pr :: qs⟩ stores fo) fs =
      build_house_schedule ⟨hn, ps ++ qs⟩
        (compute_house_chain ⟨hn, ps ++ qs⟩ stores fo) fs) ∧
    (compute_costs [⟨hn, ps ++ pr :: qs⟩] fo).2 =
      (compute_costs [⟨hn, ps ++ qs⟩] fo).2 ∧
    (compute_costs [⟨hn, ps ++ pr :: qs⟩] fo).1 =
      [(hn, prodSum (ps ++ qs) + pr.cost * (pr.quantity : Rat))] ∧
    (compute_costs [⟨hn, ps ++ qs⟩] fo).1 = [(hn, prodSum (ps ++ qs))] ∧
    compute_total_cost [⟨hn, ps ++ pr :: qs⟩] =
      compute_total_cost [⟨hn, ps ++ qs⟩] + pr.cost * (pr.quantity : Rat) := by
  have hb : chainBestLoop fo pr.stores none none = none := by rw [hempty]; rfl
  have hchain : chainMapOf fo (ps ++ pr :: qs) = chainMapOf fo (ps ++ qs) := by
    unfold chainMapOf
    rw [List.foldl_append, List.foldl_cons, chainStep_none fo _ pr hb,
      ← List.foldl_append]
  have hcc : compute_house_chain ⟨hn, ps ++ pr :: qs⟩ stores fo =
      compute_house_chain ⟨hn, ps ++ qs⟩ stores fo := by
    unfold compute_house_chain
    dsimp only
    rw [hchain]
  have hcost1 : (compute_costs [(⟨hn, ps ++ pr :: qs⟩ : House)] fo) =
      ([(hn, (costs_inner fo (ps ++ pr :: qs) (0, [])).1)],
       (costs_inner fo (ps ++ pr :: qs) (0, [])).2) := rfl
  have hcost2 : (compute_costs [(⟨hn, ps ++ qs⟩ : House)] fo) =
      ([(hn, (costs_inner fo (ps ++ qs) (0, [])).1)],
       (costs_inner fo (ps ++ qs) (0, [])).2) := rfl
  have hsnd : (costs_inner fo (ps ++ pr :: qs) ((0 : Rat), ([] : List (String × Rat)))).2 =
      (costs_inner fo (ps ++ qs) (0, [])).2 := by
    rw [costs_inner_append, costs_inner_cons, costs_inner_append]
    rw [costs_step_empty fo pr hempty]
    conv_rhs => rw [← Prod.mk.eta (p := costs_inner fo ps (0, []))]
    exact costs_inner_snd_indep fo qs _ _ _
  refine ⟨hcc, fun fs => ?_, ?_, ?_, ?_, ?_⟩
  · rw [hcc]
    exact build_house_schedule_house_irrel _ _ fs _
  · rw [hcost1, hcost2]
    exact hsnd
  · rw [hcost1]
    rw [costs_inner_fst fo (ps ++ pr :: qs) (0, [])]
    rw [prodSum_append, prodSum_cons, prodSum_append]
    norm_num
    ring
  · rw [hcost2]
    rw [costs_inner_fst fo (ps ++ qs) (0, [])]
    norm_num
  · rw [compute_total_cost_eq, compute_total_cost_eq]
    simp only [List.map_cons, List.map_nil, List.sum_cons, List.sum_nil]
    rw [prodSum_append, prodSum_cons, prodSum_append]
    ring

theorem no_candidate_item_cost_only_witness :
    compute_house_chain ⟨"H1", [egPr] ++ (⟨"W", 1, 4, []⟩ : Product) :: []⟩ [] egFo =
      compute_house_chain ⟨"H1", [egPr] ++ []⟩ [] egFo ∧
    compute_total_cost [⟨"H1", [egPr] ++ (⟨"W", 1, 4, []⟩ : Product) :: []⟩] =
      compute_total_cost [⟨"H1", [egPr] ++ []⟩] +
        (⟨"W", 1, 4, []⟩ : Product).cost * ((⟨"W", 1, 4, []⟩ : Product).quantity : Rat) :=
  ⟨(no_candidate_item_cost_only [] egFo "H1" [egPr] [] ⟨"W", 1, 4, []⟩ rfl).1,
   (no_candidate_item_cost_only [] egFo "H1" [egPr] [] ⟨"W", 1, 4, []⟩ rfl).2.2.2.2.2⟩

/-! ## Loading lemmas (claim C8) -/

/-- `add_product` preserves positivity of all quantities when the added
quantity is positive. -/
theorem add_product_pos (h : House) (product_name : String) (quantity : Nat)
    (cost : Rat) (store_list : List String)
    (hh : ∀ pr ∈ h.products, 0 < pr.quantity) (hq : 0 < quantity) :
    ∀ pr ∈ (h.add_product product_name quantity cost store_list).products,
      0 < pr.quantity := by
  intro pr hpr
  unfold House.add_product at hpr
  rw [if_pos (Nat.pos_iff_ne_zero.mp hq)] at hpr
  simp only at hpr
  rcases List.mem_append.mp hpr with hpr | hpr
  · exact hh pr hpr
  · simp only [List.mem_singleton] at hpr
    subst hpr
    exact hq

/-- `dictUpdate` preserves a value predicate that `f` preserves. -/
theorem dictUpdate_pred {β : Type} (P : β → Prop) (k : String) (f : β → β)
    (hf : ∀ b, P b → P (f b)) :
    ∀ m : List (String × β), (∀ p ∈ m, P p.2) → ∀ p ∈ dictUpdate m k f, P p.2
  | [], _, p, hp => by simp [dictUpdate] at hp
  | (k', w) :: rest, hm, p, hp => by
    unfold dictUpdate at hp
    by_cases hk : k' = k
    · rw [if_pos hk] at hp
      rcases List.mem_cons.mp hp with heq | hp'
      · subst heq
        exact hf w (hm (k', w) (List.mem_cons_self _ _))
      · exact hm p (List.mem_cons_of_mem _ hp')
    · rw [if_neg hk] at hp
      rcases List.mem_cons.mp hp with heq | hp'
      · subst heq
        exact hm (k', w) (List.mem_cons_self _ _)
      · exact dictUpdate_pred P k f hf rest
          (fun q hq => hm q (List.mem_cons_of_mem _ hq)) p hp'

/-- One cell step preserves positivity of all stored quantities. -/
theorem loadCell_pos (product : String) (cost : Rat) (available : List String)
    (offset : Nat) (row : List String) (houses : List (String × House))
    (iph : Nat × String)
    (hgood : ∀ p ∈ houses, ∀ pr ∈ p.2.products, 0 < pr.quantity) :
    ∀ p ∈ loadCell product cost available offset row houses iph,
      ∀ pr ∈ p.2.products, 0 < pr.quantity := by
  intro p hp
  unfold loadCell at hp
  by_cases hd : pyIsdigit (pyCellAt row (iph.1 + offset)) = true
  · rw [if_pos hd] at hp
    by_cases hq : pyInt (pyCellAt row (iph.1 + offset)) > 0
    · rw [if_pos hq] at hp
      have hbase : ∀ p' ∈ (if (houses.map Prod.fst).contains iph.2 then houses
          else houses ++ [(iph.2, House.mk iph.2 [])]),
          ∀ pr ∈ p'.2.products, 0 < pr.quantity := by
        intro p' hp'
        by_cases hc : (houses.map Prod.fst).contains iph.2 = true
        · rw [if_pos hc] at hp'
          exact hgood p' hp'
        · rw [if_neg hc] at hp'
          rcases List.mem_append.mp hp' with hp' | hp'
          · exact hgood p' hp'
          · simp only [List.mem_singleton] at hp'
            subst hp'
            intro pr hpr
            simp at hpr
      exact dictUpdate_pred (fun h => ∀ pr ∈ h.products, 0 < pr.quantity) iph.2 _
        (fun b hb => add_product_pos b product _ cost available hb hq) _ hbase p hp
    · rw [if_neg hq] at hp
      exact hgood p hp
  · rw [if_neg hd] at hp
    exact hgood p hp

/-- The per-row cell fold preserves positivity. -/
theorem loadCells_pos (product : String) (cost : Rat) (available : List String)
    (offset : Nat) (row : List String) :
    ∀ (lst : List (Nat × String)) (houses : List (String × House)),
      (∀ p ∈ houses, ∀ pr ∈ p.2.products, 0 < pr.quantity) →
      ∀ p ∈ lst.foldl (loadCell product cost available offset row) houses,
        ∀ pr ∈ p.2.products, 0 < pr.quantity
  | [], _, hgood => hgood
  | iph :: rest, houses, hgood => by
    rw [List.foldl_cons]
    exact loadCells_pos product cost available offset row rest _
      (loadCell_pos product cost available offset row houses iph hgood)

/-- One data row preserves positivity. -/
theorem loadStep_pos (stores : List StoreObj) (product_costs : List (String × Rat))
    (house_nums : List String) (offset : Nat) (houses : List (String × House))
    (row : List String)
    (hgood : ∀ p ∈ houses, ∀ pr ∈ p.2.products, 0 < pr.quantity) :
    ∀ p ∈ loadStep stores product_costs house_nums offset houses row,
      ∀ pr ∈ p.2.products, 0 < pr.quantity := by
  intro p hp
  unfold loadStep at hp
  by_cases hrow : row ≠ []
  · rw [if_pos hrow] at hp
    exact loadCells_pos _ _ _ offset row house_nums.enum houses hgood p hp
  · rw [if_neg hrow] at hp
    exact hgood p hp

/-- The whole data-row fold preserves positivity. -/
theorem loadRows_pos (stores : List StoreObj) (product_costs : List (String × Rat))
    (house_nums : List String) (offset : Nat) :
    ∀ (dataRows : List (List String)) (houses : List (String × House)),
      (∀ p ∈ houses, ∀ pr ∈ p.2.products, 0 < pr.quantity) →
      ∀ p ∈ dataRows.foldl (loadStep stores product_costs house_nums offset) houses,
        ∀ pr ∈ p.2.products, 0 < pr.quantity
  | [], _, hgood => hgood
  | row :: rest, houses, hgood => by
    rw [List.foldl_cons]
    exact loadRows_pos stores product_costs house_nums offset rest _
      (loadStep_pos stores product_costs house_nums offset houses row hgood)

/-- C8: every line item of every loaded household has a strictly positive
quantity; a zero, negative or non-digit quantity cell never creates a line
item. -/
theorem loaded_quantities_positive (rows : List (List String))
    (stores : List StoreObj) (product_costs : List (String × Rat))
    (hid : String) (h : House) (pr : Product)
    (hmem : (hid, h) ∈ load_house_orders rows stores product_costs)
    (hpr : pr ∈ h.products) : 0 < pr.quantity := by
  unfold load_house_orders at hmem
  cases rows with
  | nil => simp at hmem
  | cons header rest =>
    cases rest with
    | nil => simp at hmem
    | cons second dataRows =>
      exact loadRows_pos stores product_costs _ _ dataRows [] (by simp)
        (hid, h) hmem pr hpr

theorem loaded_quantities_positive_witness : 0 < (⟨"Apple", 2, 0, []⟩ : Product).quantity :=
  loaded_quantities_positive [["", "", "H1"], [""], ["Apple", "pad", "2"]] [] []
    "H1" ⟨"H1", [⟨"Apple", 2, 0, []⟩]⟩ ⟨"Apple", 2, 0, []⟩ (by decide) (by decide)

/-! ## Day-ordering lemmas (claim C9) -/

theorem pySplitAux_nonws (c : Char) (cs acc : List Char)
    (h : c.isWhitespace = false) :
    pySplitAux (c :: cs) acc = pySplitAux cs (acc ++ [c]) := by
  simp [pySplitAux, h]

theorem pySplitAux_ws (c : Char) (cs acc : List Char)
    (h : c.isWhitespace = true) (ha : acc.isEmpty = false) :
    pySplitAux (c :: cs) acc = acc :: pySplitAux cs [] := by
  simp [pySplitAux, h, ha]

theorem append_singleton_isEmpty (acc : List Char) (d : Char) :
    (acc ++ [d]).isEmpty = false := by
  cases acc <;> rfl

/-- A nonempty whitespace-free tail is collected as one final word. -/
theorem pySplitAux_all_nonws :
    ∀ (cs acc : List Char), cs ≠ [] → (∀ c ∈ cs, c.isWhitespace = false) →
      pySplitAux cs acc = [acc ++ cs]
  | [], _, h, _ => absurd rfl h
  | [d], acc, _, hws => by
    rw [pySplitAux_nonws d [] acc (hws d (by simp))]
    simp [pySplitAux, append_singleton_isEmpty]
  | d :: e :: rest, acc, _, hws => by
    rw [pySplitAux_nonws d (e :: rest) acc (hws d (by simp))]
    rw [pySplitAux_all_nonws (e :: rest) (acc ++ [d]) (by simp)
      (fun c hc => hws c (by simp [List.mem_cons] at hc ⊢; tauto))]
    simp

theorem isPrefixOf_append_self (l1 l2 : List Char) :
    List.isPrefixOf l1 (l1 ++ l2) = true := by
  induction l1 with
  | nil => simp [List.isPrefixOf]
  | cons a t ih => simp [List.isPrefixOf, ih]

/-- The key of a label `"Extra Day " ++ s` whose numeral part `s` parses as
the integer `n` is `7 + n`. -/
theorem extra_day_key (s : String) (n : Int)
    (hp : pyParseInt s.data = some n)
    (hws : ∀ c ∈ s.data, c.isWhitespace = false) :
    day_sort_key ("Extra Day " ++ s) = 7 + n := by
  have hsne : s.data ≠ [] := by
    intro h; rw [h] at hp; simp [pyParseInt] at hp
  have hdata : ("Extra Day " ++ s).data =
      'E' :: 'x' :: 't' :: 'r' :: 'a' :: ' ' :: 'D' :: 'a' :: 'y' :: ' ' :: s.data := rfl
  have hhd : ("Extra Day " ++ s).data.head? = some 'E' := by rw [hdata]; rfl
  have hnmem : ("Extra Day " ++ s) ∉ DAY_LIST := by
    intro hmem
    simp only [DAY_LIST, List.mem_cons, List.not_mem_nil, or_false] at hmem
    rcases hmem with h|h|h|h|h|h|h <;> rw [h] at hhd <;> exact absurd hhd (by decide)
  have hsw : pyStartswith ("Extra Day " ++ s) "Extra Day" = true := by
    unfold pyStartswith
    have hd2 : ("Extra Day " ++ s).data =
        ("Extra Day" : String).data ++ (' ' :: s.data) := rfl
    rw [hd2]
    exact isPrefixOf_append_self _ _
  have hsplit : pySplit ("Extra Day " ++ s) =
      [['E','x','t','r','a'], ['D','a','y'], s.data] := by
    unfold pySplit
    rw [hdata]
    rw [pySplitAux_nonws _ _ _ (by decide)]
    rw [pySplitAux_nonws _ _ _ (by decide)]
    rw [pySplitAux_nonws _ _ _ (by decide)]
    rw [pySplitAux_nonws _ _ _ (by decide)]
    rw [pySplitAux_nonws _ _ _ (by decide)]
    rw [pySplitAux_ws _ _ _ (by decide) (by decide)]
    rw [pySplitAux_nonws _ _ _ (by decide)]
    rw [pySplitAux_nonws _ _ _ (by decide)]
    rw [pySplitAux_nonws _ _ _ (by decide)]
    rw [pySplitAux_ws _ _ _ (by decide) (by decide)]
    rw [pySplitAux_all_nonws s.data [] hsne hws]
    simp
  unfold day_sort_key
  rw [if_neg hnmem, if_pos hsw]
  dsimp only
  rw [hsplit]
  norm_num
  rw [hp]

/-- A label of neither recognized form gets the sentinel key 9999. -/
theorem day_key_unrecognized (d : String) (hmem : d ∉ DAY_LIST)
    (hforms : pyStartswith d "Extra Day" = false ∨ (pySplit d).length ≠ 3 ∨
      pyParseInt ((pySplit d).getD 2 []) = none) :
    day_sort_key d = 9999 := by
  unfold day_sort_key
  rw [if_neg hmem]
  by_cases hsw : pyStartswith d "Extra Day" = true
  · rw [if_pos hsw]
    dsimp only
    rcases hforms with h | h | h
    · rw [hsw] at h; exact absurd h (by decide)
    · rw [if_neg h]
    · by_cases hlen : (pySplit d).length = 3
      · rw [if_pos hlen, h]
      · rw [if_neg hlen]
  · rw [if_neg hsw]

/-- C9 (amended): the day-ordering key maps the seven weekday names to 1..7
in weekday order, maps `"Extra Day N"` with a parseable `N` to `7 + N`, and
maps every label of neither recognized form to the sentinel 9999, which
places it strictly after every weekday and after every `"Extra Day N"` whose
key `7 + N` is below the sentinel (`N < 9992`); a recognized
`"Extra Day N"` with `N ≥ 9992` ties with or exceeds the sentinel instead of
sorting strictly before unrecognized labels. -/
theorem day_sort_key_amended :
    (day_sort_key "Monday" = 1 ∧ day_sort_key "Tuesday" = 2 ∧
     day_sort_key "Wednesday" = 3 ∧ day_sort_key "Thursday" = 4 ∧
     day_sort_key "Friday" = 5 ∧ day_sort_key "Saturday" = 6 ∧
     day_sort_key "Sunday" = 7) ∧
    (∀ (s : String) (n : Int), pyParseInt s.data = some n →
      (∀ c ∈ s.data, c.isWhitespace = false) →
      day_sort_key ("Extra Day " ++ s) = 7 + n) ∧
    (∀ d : String, d ∉ DAY_LIST →
      (pyStartswith d "Extra Day" = false ∨ (pySplit d).length ≠ 3 ∨
        pyParseInt ((pySplit d).getD 2 []) = none) →
      day_sort_key d = 9999) ∧
    (∀ d e : String, d ∈ DAY_LIST → day_sort_key e = 9999 →
      day_sort_key d < day_sort_key e) ∧
    (∀ (s : String) (n : Int) (e : String), pyParseInt s.data = some n →
      (∀ c ∈ s.data, c.isWhitespace = false) → n < 9992 →
      day_sort_key e = 9999 →
      day_sort_key ("Extra Day " ++ s) < day_sort_key e) := by
  refine ⟨⟨by decide, by decide, by decide, by decide, by decide, by decide, by decide⟩,
    extra_day_key, day_key_unrecognized, ?_, ?_⟩
  · intro d e hd he
    rw [he]
    simp only [DAY_LIST, List.mem_cons, List.not_mem_nil, or_false] at hd
    rcases hd with h|h|h|h|h|h|h <;> rw [h] <;> decide
  · intro s n e hp hws hn he
    rw [he, extra_day_key s n hp hws]
    omega

theorem day_sort_key_amended_witness :
    day_sort_key ("Extra Day " ++ "3") = 7 + 3 ∧ day_sort_key "Someday" = 9999 :=
  ⟨day_sort_key_amended.2.1 "3" 3 (by decide) (by decide),
   day_sort_key_amended.2.2.1 "Someday" (by decide) (Or.inl (by decide))⟩

/-- Counterexample to C9 as stated: `"Extra Day 9992"` is of the recognized
form (its numeral parses), `"Someday"` is of neither recognized form, yet the
unrecognized label does not sort strictly after the recognized one — both
get the key 9999. -/
theorem day_sort_key_strictly_after_cex :
    day_sort_key "Extra Day 9992" = 9999 ∧
    pyParseInt ("9992" : String).data = some 9992 ∧
    ("Someday" : String) ∉ DAY_LIST ∧
    pyStartswith "Someday" "Extra Day" = false ∧
    day_sort_key "Someday" = 9999 ∧
    ¬ (day_sort_key "Extra Day 9992" < day_sort_key "Someday") :=
  ⟨by decide, by decide, by decide, by decide, by decide, by decide⟩
